import Mathlib

/-!
# Verification of the AI-SERVICE RAG pipeline core

Shallow embedding of the ingestion/retrieval core of the service:

* `src/helpers/document.py` — the chunker (`chunk_text`);
* `src/helpers/rag.py` — the filter builder (`build_qdrant_filter`) and the
  per-collection search wrapper (`search_collection`);
* `src/routers/search.py` — the retrieval fan-out, score fusion and answer
  phase of `rag_search`;
* `src/helpers/embedding.py` — the embedding worker loops.

Python strings are modelled as Lean `String`; Python `float` scores as `ℚ`
(all score comparisons in the code are order comparisons, which finite
floats and rationals agree on); Python dict payloads as association lists
in insertion order; external collaborators (the vector store, the embedding
model, the generation model) as explicit oracle parameters; a raised
exception from a collaborator as `Except.error`.
-/

namespace RagService

/-! ## Python string primitives

Structural models of the Python string operations the core uses, defined by
recursion over the character list so that they evaluate by kernel reduction.
-/

/-- Model of Python `text.split("\n")`: splits at each newline; `""` gives `[""]`. -/
def splitLinesAux : List Char → List Char → List String
  | [], acc => [String.mk acc.reverse]
  | c :: cs, acc =>
    if c = '\n' then String.mk acc.reverse :: splitLinesAux cs []
    else splitLinesAux cs (c :: acc)

/-- Model of Python `text.split("\n")`. -/
def pyLines (s : String) : List String :=
  splitLinesAux s.data []

/-- Model of Python `s.split()` (no separator): split on whitespace runs,
dropping empty pieces. -/
def pyWordsAux : List Char → List Char → List String
  | [], acc => if acc.isEmpty then [] else [String.mk acc.reverse]
  | c :: cs, acc =>
    if c.isWhitespace then
      if acc.isEmpty then pyWordsAux cs []
      else String.mk acc.reverse :: pyWordsAux cs []
    else pyWordsAux cs (c :: acc)

/-- Model of Python `s.split()` with no separator. -/
def pyWords (s : String) : List String :=
  pyWordsAux s.data []

/-- `len(line.split())`, the word count the chunker uses. -/
def wordCount (s : String) : Nat :=
  (pyWords s).length

/-- Model of Python `not line.strip()`: the line is empty or all whitespace. -/
def pyIsBlank (s : String) : Bool :=
  s.data.all (·.isWhitespace)

/-- Model of Python `s[:n]` on a string (slice of the first `n` characters). -/
def pyTake (s : String) (n : Nat) : String :=
  String.mk (s.data.take n)

/-- Model of Python `sep.join(parts)`. -/
def joinWith (sep : String) : List String → String
  | [] => ""
  | [l] => l
  | l :: ls => l ++ sep ++ joinWith sep ls

/-- Model of Python `"\n".join(parts)`, as used when a chunk's text is built. -/
def joinLines (parts : List String) : String :=
  joinWith "\n" parts

/-- Python truthiness of an optional string field (`if filters.meeting_id:`):
`None` and `""` are falsy. -/
def strTruthy : Option String → Bool
  | none => false
  | some s => !s.isEmpty

/-! ## Chunker (`src/helpers/document.py`, `chunk_text`)

`int(max_tokens * 0.75)` is modelled as `3 * max_tokens / 4` (the float
product by `0.75 = 3/4` is exact for every realistic magnitude and `int`
truncates), and `int(current_word_count / 0.75)` as `4 * wc / 3` (the
quotient `4·wc/3` is never within a float rounding error of an integer it
is not equal to, so truncation agrees with the exact floor).
-/

/-- A produced chunk: the dict
`{"text": ..., "word_count": ..., "approx_tokens": ...}`. -/
structure Chunk where
  text : String
  word_count : Nat
  approx_tokens : Nat
deriving DecidableEq, Repr

/-- Closing a chunk: `{"text": "\n".join(cur), "word_count": cnt,
"approx_tokens": int(cnt / 0.75)}`. -/
def mkChunk (cur : List String) (cnt : Nat) : Chunk :=
  { text := joinLines cur
    word_count := cnt
    approx_tokens := 4 * cnt / 3 }

/-- The overlap loop of `chunk_text`: walk the closed chunk's lines from the
end (`reversed(current_chunk)`), prepending each (`overlap_lines.insert(0, …)`)
and accumulating its word count, stopping as soon as the accumulated count
reaches `overlap_words`.  The argument is the reversed line buffer. -/
def overlapAux (overlap_words : Nat) (acc : List String) (cnt : Nat) :
    List String → List String × Nat
  | [] => (acc, cnt)
  | p :: rest =>
    if overlap_words ≤ cnt + wordCount p then (p :: acc, cnt + wordCount p)
    else overlapAux overlap_words (p :: acc) (cnt + wordCount p) rest

/-- Loop state of `chunk_text`: the chunks emitted so far, the current line
buffer and its running word count. -/
structure ChunkState where
  chunks : List Chunk
  current : List String
  count : Nat

/-- One iteration of the `for line in lines` loop of `chunk_text`:
skip blank lines; when adding the line would push the buffer over
`max_words` and the buffer is non-empty, close the chunk and seed the buffer
with the overlap suffix; in every non-blank case the line is then appended
to the (possibly just reseeded) buffer, so the two non-blank branches below
both end by appending `line`. -/
def processLine (max_words overlap_words : Nat) (st : ChunkState) (line : String) :
    ChunkState :=
  if pyIsBlank line then st
  else if max_words < st.count + wordCount line && !st.current.isEmpty then
    { chunks := st.chunks ++ [mkChunk st.current st.count]
      current := (overlapAux overlap_words [] 0 st.current.reverse).1 ++ [line]
      count := (overlapAux overlap_words [] 0 st.current.reverse).2 + wordCount line }
  else
    { chunks := st.chunks
      current := st.current ++ [line]
      count := st.count + wordCount line }

/-- Flush of `chunk_text`: `if current_chunk: chunks.append(...)`. -/
def finishChunks (st : ChunkState) : List Chunk :=
  if st.current.isEmpty then st.chunks
  else st.chunks ++ [mkChunk st.current st.count]

/-- Model of `chunk_text(text, max_tokens=512, overlap_tokens=50,
preserve_speaker_turns=True)`.  The `preserve_speaker_turns` parameter is
accepted and, as in the source, never read. -/
def chunk_text (text : String) (max_tokens : Nat := 512) (overlap_tokens : Nat := 50)
    (preserve_speaker_turns : Bool := true) : List Chunk :=
  let max_words := 3 * max_tokens / 4
  let overlap_words := 3 * overlap_tokens / 4
  let lines := pyLines text
  let st := lines.foldl (processLine max_words overlap_words) ⟨[], [], 0⟩
  finishChunks st

example : chunk_text "" = [] := by decide
example : (chunk_text "a b\nc d e").map Chunk.word_count = [5] := by decide
example : (chunk_text "a b" 4 0).map Chunk.word_count = [2] := by decide
example : chunk_text "a b" 4 0 = [⟨"a b", 2, 2⟩] := by decide

/-! ## Filter builder (`src/helpers/rag.py`, `build_qdrant_filter`) -/

/-- The eight optional fields of `SearchFilters` (`src/schemas.py`). -/
structure SearchFilters where
  meeting_id : Option String := none
  file_name : Option String := none
  start_timestamp : Option String := none
  end_timestamp : Option String := none
  chunk_index_min : Option Int := none
  chunk_index_max : Option Int := none
  block_id_min : Option Int := none
  block_id_max : Option Int := none
deriving DecidableEq, Repr

/-- A Qdrant `FieldCondition`: either `match=MatchValue(value=…)` (exact
match) or `range=Range(gte=…, lte=…)`. -/
inductive Condition where
  | matchValue (key : String) (value : String)
  | range (key : String) (gte lte : Option Int)
deriving DecidableEq, Repr

/-- The payload field a condition constrains. -/
def Condition.key : Condition → String
  | .matchValue k _ => k
  | .range k _ _ => k

/-- A Qdrant `Filter(must=…)`: the conjunction ("must match ALL") of its
conditions. -/
structure QFilter where
  must : List Condition
deriving DecidableEq, Repr

/-- The `conditions` list accumulated by `build_qdrant_filter`, in source
append order: `meeting_id`, `timestamp`, then the documents-specific
`file_name` and `chunk_index`, then the transcripts-specific `block_id`.
`None` (and the Python-falsy `""`) string fields add no condition; the
integer range fields are tested with `is not None`. -/
def conditionsFor (f : SearchFilters) (collection_type : String) : List Condition :=
  (if strTruthy f.meeting_id then
    [.matchValue "meeting_id" (f.meeting_id.getD "")] else [])
  ++ (if strTruthy f.start_timestamp || strTruthy f.end_timestamp then
        if strTruthy f.start_timestamp then
          [.matchValue "timestamp" (f.start_timestamp.getD "")] else []
      else [])
  ++ (if collection_type = "documents" then
        (if strTruthy f.file_name then
          [.matchValue "file_name" (f.file_name.getD "")] else [])
        ++ (if f.chunk_index_min.isSome || f.chunk_index_max.isSome then
              [.range "chunk_index" f.chunk_index_min f.chunk_index_max] else [])
      else [])
  ++ (if collection_type = "transcripts" then
        (if f.block_id_min.isSome || f.block_id_max.isSome then
          [.range "block_id" f.block_id_min f.block_id_max] else [])
      else [])

/-- Model of `build_qdrant_filter(filters, collection_type)`: `None` filters
give no predicate; otherwise the accumulated conditions are wrapped in
`Filter(must=conditions)` when non-empty, else no predicate
(`return Filter(must=conditions) if conditions else None`). -/
def build_qdrant_filter (filters : Option SearchFilters) (collection_type : String) :
    Option QFilter :=
  match filters with
  | none => none
  | some f =>
    let conditions := conditionsFor f collection_type
    if conditions.isEmpty then none else some ⟨conditions⟩

/-- The conditions a built filter imposes (`none` imposes none). -/
def mustOf : Option QFilter → List Condition
  | none => []
  | some fl => fl.must

example :
    build_qdrant_filter (some { meeting_id := some "m1" }) "documents" =
      some ⟨[.matchValue "meeting_id" "m1"]⟩ := by decide
example : build_qdrant_filter (some {}) "documents" = none := by decide
example : build_qdrant_filter (some { block_id_min := some 1 }) "chat" = none := by decide

/-! ## Per-collection search (`src/helpers/rag.py`, `search_collection`) -/

/-- A payload value: Python scalars and nested dicts, as stored with a point. -/
inductive PVal where
  | str (s : String)
  | int (n : Int)
  | obj (fields : List (String × PVal))

/-- Association-list lookup modelling `payload.get(k)` / `k in payload`
on a Python dict (insertion order, unique keys). -/
def lookupVal (fields : List (String × PVal)) (k : String) : Option PVal :=
  match fields with
  | [] => none
  | p :: rest => if p.1 = k then some p.2 else lookupVal rest k

/-- Rendering of a payload value inside an f-string (Python `str(…)`).
Strings pass through; the textual form of nested dicts is abstracted. -/
def pyStr : PVal → String
  | .str s => s
  | .int n => toString n
  | .obj _ => "\x7b...\x7d"

/-- A point returned by the store's `search`: similarity score plus payload. -/
structure ScoredPoint where
  score : ℚ
  payload : List (String × PVal)

/-- The transcript content extraction of `search_collection`: for each
`(speaker, data)` payload item where `data` is a dict containing `"text"`,
emit `f"{speaker}: {data['text']}"`; join the parts with newlines. -/
def transcriptContent (payload : List (String × PVal)) : String :=
  joinLines <| payload.filterMap fun p =>
    match p.2 with
    | .obj fields =>
      match lookupVal fields "text" with
      | some v => some (p.1 ++ ": " ++ pyStr v)
      | none => none
    | _ => none

/-- The content extraction of `search_collection`: transcripts get the
speaker rendering; other collections use `payload.get("text", str(payload))`. -/
def extractContent (collection_type : String) (payload : List (String × PVal)) : String :=
  if collection_type = "transcripts" then transcriptContent payload
  else
    match lookupVal payload "text" with
    | some v => pyStr v
    | none => pyStr (.obj payload)

/-- A `SearchResult` (`src/schemas.py`): one fused search hit. -/
structure SearchResult where
  collection : String
  score : ℚ
  content : String
  metadata : List (String × PVal)
  meeting_id : Option String
  timestamp : Option String

/-- Model of `search_collection`: the store call (everything inside the
`try`) is an oracle that either raises (`Except.error`) or returns scored
points; on success each point becomes a `SearchResult` with content
truncated to 500 characters, on any exception the collection degrades to
`[]` and nothing propagates. -/
def search_collection (collection_name : String)
    (store : Except String (List ScoredPoint)) (collection_type : String) :
    List SearchResult :=
  match store with
  | .error _ => []
  | .ok results =>
    results.map fun r =>
      { collection := collection_name
        score := r.score
        content := pyTake (extractContent collection_type r.payload) 500
        metadata := r.payload
        meeting_id := (lookupVal r.payload "meeting_id").map pyStr
        timestamp := (lookupVal r.payload "timestamp").map pyStr }

/-! ## Fusion and the answer phase (`src/routers/search.py`, `rag_search`) -/

/-- The sort order of fusion: `sort(key=lambda x: x.score, reverse=True)`,
i.e. `a` may come before `b` iff `a.score ≥ b.score`. -/
def scoreGe (a b : SearchResult) : Prop :=
  b.score ≤ a.score

instance : DecidableRel scoreGe := fun a b => inferInstanceAs (Decidable (b.score ≤ a.score))

instance : IsTotal SearchResult scoreGe := ⟨fun a b => le_total b.score a.score⟩

instance : IsTrans SearchResult scoreGe := ⟨fun _ _ _ h1 h2 => le_trans h2 h1⟩

/-- Fusion: concatenate the per-collection result lists in order
(documents, transcripts, chat), sort by score descending — Python's
`list.sort` is stable, modelled by stable insertion sort — and keep the
first `top_k * 2` results. -/
def fuse (doc_results transcript_results chat_results : List SearchResult)
    (top_k : Nat) : List SearchResult :=
  (((doc_results ++ transcript_results ++ chat_results).insertionSort scoreGe)).take
    (top_k * 2)

/-- The search request fields `rag_search` reads. -/
structure SearchRequest where
  query : String
  filters : Option SearchFilters
  top_k : Nat
  include_sources : Bool

/-- The response fields computed by the core (the wall-clock
`processing_time_ms` is outside the model). -/
structure RAGResponse where
  answer : String
  sources : List SearchResult
  query : String
  total_results : Nat

/-- One store-search oracle per collection: the outcome of
`qdrant.search` on the query vector for that collection. -/
structure StoreOracle where
  docs : Except String (List ScoredPoint)
  transcripts : Except String (List ScoredPoint)
  chat : Except String (List ScoredPoint)

/-- The literal fallback answer of `rag_search` when fusion returns nothing. -/
def fallback_answer : String :=
  "I couldn't find any relevant information in the meeting transcripts or documents to answer your query. Try rephrasing your question or checking if the meeting has been processed."

def documentCollection : String := "document_collection"
def transcriptsCollection : String := "meeting_transcripts"
def chatCollection : String := "chat_messages"

/-- Model of the retrieval/fusion/answer core of `rag_search`.  The
generation collaborator (`gemini_model.generate_content` composed with
`.text`) is the oracle `gen`; the prompt assembler `build_rag_prompt` is the
pure function `prompt_of`; the Boolean in the result records whether the
generation collaborator was invoked.  Filters are built per collection type
and absorbed into the per-collection store oracles. -/
def rag_search (store : StoreOracle) (gen : String → String)
    (prompt_of : String → List SearchResult → String) (req : SearchRequest) :
    RAGResponse × Bool :=
  let doc_results := search_collection documentCollection store.docs "documents"
  let transcript_results := search_collection transcriptsCollection store.transcripts "transcripts"
  let chat_results := search_collection chatCollection store.chat "chat"
  let all_results := doc_results ++ transcript_results ++ chat_results
  let top_results := fuse doc_results transcript_results chat_results req.top_k
  let answered :=
    if top_results.isEmpty then (fallback_answer, false)
    else (gen (prompt_of req.query top_results), true)
  ({ answer := answered.1
     sources := if req.include_sources then top_results else []
     query := req.query
     total_results := all_results.length }, answered.2)

/-! ## Embedding workers (`src/helpers/embedding.py`)

Each worker is an infinite loop draining its queue in FIFO order; we model
one run of the loop over the finite list of messages the queue delivers.
The embedding model (`_model.encode`) and the store write (`qdrant.upsert`)
are oracles that may raise; `str(uuid4())` is the oracle `fresh_id` applied
to the message's position.  The result is the list of points actually
upserted plus the number of `task_done()` calls.
-/

/-- A point as upserted by a worker. -/
structure UpsertedPoint where
  id : String
  collection_name : String
  vector : List ℚ
  payload : List (String × PVal)

/-- One iteration of a worker body: everything inside the `try` — the
`chunk["text"]` access, the encode call and the upsert — may fail, in which
case the error is logged and swallowed; `task_done()` runs in the `finally`
either way. -/
def workerStep (collection : String) (encode : String → Except String (List ℚ))
    (write : UpsertedPoint → Except String Unit) (fresh_id : Nat → String)
    (idx : Nat) (chunk : List (String × PVal)) : Option UpsertedPoint :=
  match lookupVal chunk "text" with
  | none => none
  | some v =>
    match encode (pyStr v) with
    | .error _ => none
    | .ok vec =>
      let point : UpsertedPoint :=
        { id := fresh_id idx, collection_name := collection, vector := vec
          payload := chunk }
      match write point with
      | .error _ => none
      | .ok _ => some point

/-- Generic worker loop over the messages delivered by the queue, in FIFO
order, tracking upserted points and `task_done()` count. -/
def workerRun (collection : String) (encode : String → Except String (List ℚ))
    (write : UpsertedPoint → Except String Unit) (fresh_id : Nat → String)
    (idx : Nat) : List (List (String × PVal)) → List UpsertedPoint × Nat
  | [] => ([], 0)
  | chunk :: rest =>
    let here := workerStep collection encode write fresh_id idx chunk
    let later := workerRun collection encode write fresh_id (idx + 1) rest
    (here.toList ++ later.1, later.2 + 1)

/-- Model of `embedding_worker`: drains `embedding_queue` into the meeting
transcripts collection. -/
def embedding_worker (encode : String → Except String (List ℚ))
    (write : UpsertedPoint → Except String Unit) (fresh_id : Nat → String)
    (msgs : List (List (String × PVal))) : List UpsertedPoint × Nat :=
  workerRun transcriptsCollection encode write fresh_id 0 msgs

/-- Model of `embedding_chat_worker`: drains `embedding_queue_chat` into the
chat messages collection. -/
def embedding_chat_worker (encode : String → Except String (List ℚ))
    (write : UpsertedPoint → Except String Unit) (fresh_id : Nat → String)
    (msgs : List (List (String × PVal))) : List UpsertedPoint × Nat :=
  workerRun chatCollection encode write fresh_id 0 msgs

/-! ## Chunk reconstruction (the overlap-erasure reading of `chunk_text`) -/

/-- The lines of a chunk, recovered by splitting its recorded text. -/
def chunkLines (c : Chunk) : List String :=
  pyLines c.text

/-- The number of lines the chunker carried over from the chunk `prev` into
the chunk that follows it (the length of the overlap suffix the overlap
loop selects from `prev`'s lines). -/
def overlapLen (overlap_words : Nat) (prev : Chunk) : Nat :=
  (overlapAux overlap_words [] 0 (chunkLines prev).reverse).1.length

/-- The lines of the chunks after the first, each stripped of the overlap
prefix carried from its predecessor. -/
def reconstructFrom (overlap_words : Nat) (prev : Chunk) : List Chunk → List String
  | [] => []
  | c :: cs =>
    (chunkLines c).drop (overlapLen overlap_words prev) ++
      reconstructFrom overlap_words c cs

/-- Concatenation of all chunks' lines after erasing each declared overlap. -/
def reconstruct (overlap_words : Nat) : List Chunk → List String
  | [] => []
  | c :: cs => chunkLines c ++ reconstructFrom overlap_words c cs

example :
    reconstruct 0 (chunk_text "a b\nc d\ne f" 4 0) = ["a b", "c d", "e f"] := by decide

/-! ## Concrete inputs used by the claims -/

/-- The spec's fusion example: one collection returned scores 0.9 and 0.5. -/
def exDocResults : List SearchResult :=
  [⟨"documents", 9/10, "d1", [], none, none⟩, ⟨"documents", 1/2, "d2", [], none, none⟩]

/-- The spec's fusion example: the other collection returned 0.8 and 0.3. -/
def exTranscriptResults : List SearchResult :=
  [⟨"transcripts", 4/5, "t1", [], none, none⟩, ⟨"transcripts", 3/10, "t2", [], none, none⟩]

/-- A 340-word line followed by a 45-word line: both are within the 384-word
budget of `max_tokens=512`, but the chunker carries the whole first line as
overlap (340 ≥ 37) and then appends the second line unconditionally. -/
def overflowText : String :=
  joinWith " " (List.replicate 340 "a") ++ "\n" ++ joinWith " " (List.replicate 45 "a")

/-! ## General helper lemmas -/

/-- A fold step that preserves a state predicate `P` whenever the consumed
element satisfies `Q` preserves `P` across the whole fold. -/
theorem foldl_preserves {α β : Type} (f : β → α → β) (P : β → Prop) (Q : α → Prop)
    (hstep : ∀ st a, Q a → P st → P (f st a)) :
    ∀ (l : List α), (∀ a ∈ l, Q a) → ∀ st, P st → P (l.foldl f st) := by
  intro l
  induction l with
  | nil => intro _ st hst; exact hst
  | cons a as ih =>
    intro hQ st hst
    exact ih (fun b hb => hQ b (List.mem_cons_of_mem a hb)) (f st a)
      (hstep st a (hQ a (List.mem_cons_self a as)) hst)

/-! ## C2: per-collection failure tolerance -/

/-- **C2** — Per-collection failure tolerance: a store search that raises
degrades that collection to `[]` without raising, and the whole
`rag_search` behaves exactly as if that collection had returned no points,
leaving the other collections' contributions unchanged. -/
theorem C2_per_collection_failure_tolerance (e n ct : String)
    (d t c : Except String (List ScoredPoint)) (gen : String → String)
    (prompt_of : String → List SearchResult → String) (req : SearchRequest) :
    search_collection n (Except.error e) ct = [] ∧
    rag_search ⟨Except.error e, t, c⟩ gen prompt_of req =
      rag_search ⟨Except.ok [], t, c⟩ gen prompt_of req ∧
    rag_search ⟨d, Except.error e, c⟩ gen prompt_of req =
      rag_search ⟨d, Except.ok [], c⟩ gen prompt_of req ∧
    rag_search ⟨d, t, Except.error e⟩ gen prompt_of req =
      rag_search ⟨d, t, Except.ok []⟩ gen prompt_of req :=
  ⟨rfl, rfl, rfl, rfl⟩

/-! ## C7: no-results fallback -/

/-- **C7** — No-results fallback: whenever fusion returns the empty list,
`rag_search` answers with the literal fallback string and never invokes the
generation collaborator; the request completes normally. -/
theorem C7_no_results_fallback (store : StoreOracle) (gen : String → String)
    (prompt_of : String → List SearchResult → String) (req : SearchRequest)
    (h : fuse (search_collection documentCollection store.docs "documents")
        (search_collection transcriptsCollection store.transcripts "transcripts")
        (search_collection chatCollection store.chat "chat") req.top_k = []) :
    (rag_search store gen prompt_of req).1.answer = fallback_answer ∧
    (rag_search store gen prompt_of req).2 = false := by
  simp only [rag_search, h]
  exact ⟨rfl, rfl⟩

/-- Witness for C7: three healthy but empty collections. -/
theorem C7_no_results_fallback_witness :
    (rag_search ⟨Except.ok [], Except.ok [], Except.ok []⟩ (fun _ => "generated")
        (fun _ _ => "prompt") ⟨"q", none, 5, true⟩).1.answer = fallback_answer ∧
    (rag_search ⟨Except.ok [], Except.ok [], Except.ok []⟩ (fun _ => "generated")
        (fun _ _ => "prompt") ⟨"q", none, 5, true⟩).2 = false :=
  C7_no_results_fallback ⟨Except.ok [], Except.ok [], Except.ok []⟩ (fun _ => "generated")
    (fun _ _ => "prompt") ⟨"q", none, 5, true⟩ rfl

/-! ## C8: worker poison-item tolerance -/

/-- Every dequeued item is marked done exactly once, failed or not. -/
theorem workerRun_done_count (cn : String) (encode : String → Except String (List ℚ))
    (write : UpsertedPoint → Except String Unit) (fresh_id : Nat → String) :
    ∀ (msgs : List (List (String × PVal))) (idx : Nat),
      (workerRun cn encode write fresh_id idx msgs).2 = msgs.length := by
  intro msgs
  induction msgs with
  | nil => intro idx; rfl
  | cons m rest ih =>
    intro idx
    simp [workerRun, ih]

/-- The worker processes a queue segment independently of what follows it:
the upserts for `msgs ++ more` are the upserts for `msgs` followed by the
upserts for `more`. -/
theorem workerRun_append (cn : String) (encode : String → Except String (List ℚ))
    (write : UpsertedPoint → Except String Unit) (fresh_id : Nat → String) :
    ∀ (msgs more : List (List (String × PVal))) (idx : Nat),
      (workerRun cn encode write fresh_id idx (msgs ++ more)).1 =
        (workerRun cn encode write fresh_id idx msgs).1 ++
          (workerRun cn encode write fresh_id (idx + msgs.length) more).1 := by
  intro msgs
  induction msgs with
  | nil => intro more idx; simp [workerRun]
  | cons m rest ih =>
    intro more idx
    simp [workerRun, ih, List.append_assoc, Nat.add_assoc, Nat.add_comm 1]

/-- Each message yields at most one upsert (no retries). -/
theorem workerRun_no_retry (cn : String) (encode : String → Except String (List ℚ))
    (write : UpsertedPoint → Except String Unit) (fresh_id : Nat → String) :
    ∀ (msgs : List (List (String × PVal))) (idx : Nat),
      (workerRun cn encode write fresh_id idx msgs).1.length ≤ msgs.length := by
  intro msgs
  induction msgs with
  | nil => intro idx; exact Nat.le_refl 0
  | cons m rest ih =>
    intro idx
    simp only [workerRun, List.length_append, List.length_cons]
    cases workerStep cn encode write fresh_id idx m with
    | none => simpa using Nat.le_succ_of_le (ih (idx + 1))
    | some p =>
      have := ih (idx + 1)
      simp only [Option.toList, List.length_append, List.length_cons, List.length_nil]
      omega

/-- **C8** — Worker poison-item tolerance: for both workers, every queued
message is marked done exactly once and never retried, a failing message is
simply dropped, and the processing of every later message is unaffected; in
particular, with an embedding oracle that fails on `block_id=7`'s text, the
worker still embeds and upserts `block_id=8`. -/
theorem C8_worker_poison_tolerance (encode : String → Except String (List ℚ))
    (write : UpsertedPoint → Except String Unit) (fresh_id : Nat → String)
    (msgs more : List (List (String × PVal))) :
    (embedding_worker encode write fresh_id msgs).2 = msgs.length ∧
    (embedding_chat_worker encode write fresh_id msgs).2 = msgs.length ∧
    (embedding_worker encode write fresh_id msgs).1.length ≤ msgs.length ∧
    (embedding_worker encode write fresh_id (msgs ++ more)).1 =
      (embedding_worker encode write fresh_id msgs).1 ++
        (workerRun transcriptsCollection encode write fresh_id msgs.length more).1 ∧
    embedding_worker
        (fun s => if s = "poison" then Except.error "embedding failure" else Except.ok [1])
        (fun _ => Except.ok ()) (fun n => toString n)
        [[("block_id", PVal.int 7), ("text", PVal.str "poison")],
         [("block_id", PVal.int 8), ("text", PVal.str "turn eight")]] =
      ([{ id := "1", collection_name := transcriptsCollection, vector := [1],
          payload := [("block_id", PVal.int 8), ("text", PVal.str "turn eight")] }], 2) := by
  refine ⟨workerRun_done_count _ _ _ _ _ _, workerRun_done_count _ _ _ _ _ _,
    workerRun_no_retry _ _ _ _ _ _, ?_, ?_⟩
  · simpa using workerRun_append transcriptsCollection encode write fresh_id msgs more 0
  · rfl

/-! ## C9: token-estimate invariant -/

/-- Every chunk the loop has emitted records
`approx_tokens = ⌊word_count / 0.75⌋`; one more iteration preserves this. -/
theorem processLine_approx_inv (mw ow : Nat) (st : ChunkState) (line : String)
    (h : ∀ c ∈ st.chunks, c.approx_tokens = 4 * c.word_count / 3) :
    ∀ c ∈ (processLine mw ow st line).chunks,
      c.approx_tokens = 4 * c.word_count / 3 := by
  intro c hc
  unfold processLine at hc
  by_cases hb : pyIsBlank line
  · rw [if_pos hb] at hc
    exact h c hc
  · rw [if_neg hb] at hc
    split at hc
    · simp only [List.mem_append, List.mem_singleton] at hc
      rcases hc with hc | hc
      · exact h c hc
      · subst hc; rfl
    · exact h c hc

/-- **C9** — Token-estimate invariant: every chunk `chunk_text` returns
records `approx_tokens` equal to its `word_count` divided by `0.75` and
rounded down (equivalently, `4·word_count/3` with integer division). -/
theorem C9_token_estimate (text : String) (max_tokens overlap_tokens : Nat)
    (ps : Bool) (c : Chunk) (hc : c ∈ chunk_text text max_tokens overlap_tokens ps) :
    c.approx_tokens = 4 * c.word_count / 3 ∧
    c.approx_tokens = ⌊(c.word_count : ℚ) / 0.75⌋₊ := by
  have hmain : c.approx_tokens = 4 * c.word_count / 3 := by
    unfold chunk_text at hc
    simp only [finishChunks] at hc
    have hfold :
        ∀ d ∈ ((pyLines text).foldl
            (processLine (3 * max_tokens / 4) (3 * overlap_tokens / 4)) ⟨[], [], 0⟩).chunks,
          d.approx_tokens = 4 * d.word_count / 3 := by
      have := foldl_preserves
        (processLine (3 * max_tokens / 4) (3 * overlap_tokens / 4))
        (fun st => ∀ d ∈ st.chunks, d.approx_tokens = 4 * d.word_count / 3)
        (fun _ => True)
        (fun st a _ hst => processLine_approx_inv _ _ st a hst)
        (pyLines text) (fun _ _ => trivial) ⟨[], [], 0⟩ (by intro d hd; cases hd)
      exact this
    split at hc
    · exact hfold c hc
    · simp only [List.mem_append, List.mem_singleton] at hc
      rcases hc with hc | hc
      · exact hfold c hc
      · subst hc; rfl
  refine ⟨hmain, ?_⟩
  have hq : (c.word_count : ℚ) / 0.75 = ((4 * c.word_count : ℕ) : ℚ) / ((3 : ℕ) : ℚ) := by
    rw [show (0.75 : ℚ) = 3 / 4 by norm_num]
    push_cast
    ring
  rw [hmain, hq, Nat.floor_div_nat, Nat.floor_natCast]

/-- Witness for C9 on the two-word input `"a b"`. -/
theorem C9_token_estimate_witness :
    (Chunk.mk "a b" 2 2).approx_tokens = 4 * (Chunk.mk "a b" 2 2).word_count / 3 ∧
    (Chunk.mk "a b" 2 2).approx_tokens = ⌊((Chunk.mk "a b" 2 2).word_count : ℚ) / 0.75⌋₊ :=
  C9_token_estimate "a b" 512 50 true (Chunk.mk "a b" 2 2) (by decide)

/-! ## C5 and C6: filter scoping by collection type -/

/-- The conditions a built filter imposes are exactly the accumulated
`conditions` list. -/
theorem mustOf_build (f : SearchFilters) (ct : String) :
    mustOf (build_qdrant_filter (some f) ct) = conditionsFor f ct := by
  unfold build_qdrant_filter
  simp only
  split
  · next h => simp [mustOf, List.isEmpty_iff.mp h]
  · rfl

/-- Case analysis on membership in the accumulated conditions list. -/
theorem mem_conditionsFor {cond : Condition} {f : SearchFilters} {ct : String}
    (h : cond ∈ conditionsFor f ct) :
    (strTruthy f.meeting_id = true ∧
      cond = .matchValue "meeting_id" (f.meeting_id.getD "")) ∨
    (strTruthy f.start_timestamp = true ∧
      cond = .matchValue "timestamp" (f.start_timestamp.getD "")) ∨
    (ct = "documents" ∧ strTruthy f.file_name = true ∧
      cond = .matchValue "file_name" (f.file_name.getD "")) ∨
    (ct = "documents" ∧ (f.chunk_index_min.isSome || f.chunk_index_max.isSome) = true ∧
      cond = .range "chunk_index" f.chunk_index_min f.chunk_index_max) ∨
    (ct = "transcripts" ∧ (f.block_id_min.isSome || f.block_id_max.isSome) = true ∧
      cond = .range "block_id" f.block_id_min f.block_id_max) := by
  unfold conditionsFor at h
  simp only [List.mem_append] at h
  rcases h with ((h | h) | h) | h
  · split at h
    · next hg => simp only [List.mem_singleton] at h; exact Or.inl ⟨hg, h⟩
    · cases h
  · split at h
    · split at h
      · next hg => simp only [List.mem_singleton] at h; exact Or.inr (Or.inl ⟨hg, h⟩)
      · cases h
    · cases h
  · split at h
    · next hd =>
      simp only [List.mem_append] at h
      rcases h with h | h
      · split at h
        · next hg =>
          simp only [List.mem_singleton] at h
          exact Or.inr (Or.inr (Or.inl ⟨hd, hg, h⟩))
        · cases h
      · split at h
        · next hg =>
          simp only [List.mem_singleton] at h
          exact Or.inr (Or.inr (Or.inr (Or.inl ⟨hd, hg, h⟩)))
        · cases h
    · cases h
  · split at h
    · next ht =>
      split at h
      · next hg =>
        simp only [List.mem_singleton] at h
        exact Or.inr (Or.inr (Or.inr (Or.inr ⟨ht, hg, h⟩)))
      · cases h
    · cases h

/-- Counterexample to **C5** as stated: a filter with `block_id_min` set,
applied to the `chat` collection type, produces no predicate at all — in
particular no `block_id` range condition — while the same filter on
`transcripts` does produce one. -/
theorem C5_counterexample :
    build_qdrant_filter (some { block_id_min := some 1 }) "chat" = none ∧
    Condition.range "block_id" (some 1) none ∈
      mustOf (build_qdrant_filter (some { block_id_min := some 1 }) "transcripts") := by
  exact ⟨rfl, by decide⟩

/-- **C5 (amended)** — Filter scoping by collection type: the built predicate
is the conjunction (`must`) of conditions only on fields meaningful to the
collection type: a `chunk_index` range appears only for `documents`, a
`block_id` range appears only for `transcripts` (the `chat` collection type
never receives one), and a `chat` filter only ever constrains `meeting_id`
and `timestamp`. -/
theorem C5_filter_scoping (f : SearchFilters) (ct : String) :
    (∀ cond ∈ mustOf (build_qdrant_filter (some f) ct),
      cond.key = "chunk_index" → ct = "documents") ∧
    (∀ cond ∈ mustOf (build_qdrant_filter (some f) ct),
      cond.key = "block_id" → ct = "transcripts") ∧
    (ct = "chat" → ∀ cond ∈ mustOf (build_qdrant_filter (some f) ct),
      cond.key = "meeting_id" ∨ cond.key = "timestamp") := by
  refine ⟨?_, ?_, ?_⟩
  · intro cond hc hk
    rw [mustOf_build] at hc
    rcases mem_conditionsFor hc with ⟨_, rfl⟩ | ⟨_, rfl⟩ | ⟨hd, _, rfl⟩ | ⟨hd, _, rfl⟩ |
      ⟨ht, _, rfl⟩ <;> simp_all [Condition.key]
  · intro cond hc hk
    rw [mustOf_build] at hc
    rcases mem_conditionsFor hc with ⟨_, rfl⟩ | ⟨_, rfl⟩ | ⟨hd, _, rfl⟩ | ⟨hd, _, rfl⟩ |
      ⟨ht, _, rfl⟩ <;> simp_all [Condition.key]
  · intro hchat cond hc
    rw [mustOf_build] at hc
    rcases mem_conditionsFor hc with ⟨_, rfl⟩ | ⟨_, rfl⟩ | ⟨hd, _, rfl⟩ | ⟨hd, _, rfl⟩ |
      ⟨ht, _, rfl⟩ <;> simp_all [Condition.key]

/-- Witness for C5 (amended): on a `chat` search with `meeting_id` and
`block_id_min` both set, the only condition is the `meeting_id` match. -/
theorem C5_filter_scoping_witness :
    (Condition.matchValue "meeting_id" "m1").key = "meeting_id" ∨
    (Condition.matchValue "meeting_id" "m1").key = "timestamp" :=
  (C5_filter_scoping ⟨some "m1", none, none, none, none, none, some 3, none⟩ "chat").2.2
    rfl (Condition.matchValue "meeting_id" "m1") (by decide)

/-- **C6** — Filter construction for documents: with `meeting_id` provided
(non-empty, hence Python-truthy) and both `chunk_index` bounds unset, the
documents filter contains the exact `meeting_id` match and no `chunk_index`
condition; and an all-absent filter set (or no filter object at all) builds
no predicate whatsoever, for every collection type. -/
theorem C6_documents_filter (f : SearchFilters) (m : String) (ct : String)
    (hm : f.meeting_id = some m) (hne : m ≠ "")
    (hmin : f.chunk_index_min = none) (hmax : f.chunk_index_max = none) :
    Condition.matchValue "meeting_id" m ∈
      mustOf (build_qdrant_filter (some f) "documents") ∧
    (∀ cond ∈ mustOf (build_qdrant_filter (some f) "documents"),
      cond.key ≠ "chunk_index") ∧
    build_qdrant_filter (some (SearchFilters.mk none none none none none none none none))
      ct = none ∧
    build_qdrant_filter none ct = none := by
  have hemp : m.isEmpty = false := by
    cases hEq : m.isEmpty
    · rfl
    · exact absurd ((String.isEmpty_iff m).mp hEq) hne
  have htruthy : strTruthy f.meeting_id = true := by
    rw [hm]
    simp [strTruthy, hemp]
  refine ⟨?_, ?_, ?_, rfl⟩
  · rw [mustOf_build]
    unfold conditionsFor
    rw [if_pos htruthy]
    simp [hm]
  · intro cond hc
    rw [mustOf_build] at hc
    rcases mem_conditionsFor hc with ⟨_, rfl⟩ | ⟨_, rfl⟩ | ⟨_, _, rfl⟩ | ⟨_, hg, rfl⟩ |
      ⟨ht, _, rfl⟩ <;> simp_all [Condition.key]
  · unfold build_qdrant_filter conditionsFor
    by_cases hd : ct = "documents" <;> by_cases ht : ct = "transcripts" <;>
      simp [hd, ht, strTruthy]

/-- Witness for C6 with `meeting_id = "m1"` on the documents collection. -/
theorem C6_documents_filter_witness :
    Condition.matchValue "meeting_id" "m1" ∈
      mustOf (build_qdrant_filter
        (some ⟨some "m1", none, none, none, none, none, none, none⟩) "documents") ∧
    (Condition.matchValue "meeting_id" "m1").key ≠ "chunk_index" ∧
    build_qdrant_filter (some (SearchFilters.mk none none none none none none none none))
      "chat" = none ∧
    build_qdrant_filter none "chat" = none :=
  ⟨(C6_documents_filter ⟨some "m1", none, none, none, none, none, none, none⟩ "m1" "chat"
      rfl (by decide) rfl rfl).1,
   (C6_documents_filter ⟨some "m1", none, none, none, none, none, none, none⟩ "m1" "chat"
      rfl (by decide) rfl rfl).2.1 (Condition.matchValue "meeting_id" "m1") (by decide),
   (C6_documents_filter ⟨some "m1", none, none, none, none, none, none, none⟩ "m1" "chat"
      rfl (by decide) rfl rfl).2.2.1,
   (C6_documents_filter ⟨some "m1", none, none, none, none, none, none, none⟩ "m1" "chat"
      rfl (by decide) rfl rfl).2.2.2⟩

/-! ## C10: `end_timestamp` is dead and `start_timestamp` is an exact match -/

/-- **C10** — The `end_timestamp` field never influences the built filter:
any two `SearchFilters` differing only in `end_timestamp` build the same
predicate for every collection type; and a (truthy) `start_timestamp`
produces an exact-match condition on `timestamp`, never a range condition
on that field. -/
theorem C10_end_timestamp_dead (f : SearchFilters) (e : Option String) (ct : String) :
    build_qdrant_filter (some { f with end_timestamp := e }) ct =
      build_qdrant_filter (some f) ct ∧
    (∀ s, f.start_timestamp = some s → s ≠ "" →
      Condition.matchValue "timestamp" s ∈ mustOf (build_qdrant_filter (some f) ct) ∧
      ∀ gte lte : Option Int,
        Condition.range "timestamp" gte lte ∉ mustOf (build_qdrant_filter (some f) ct)) := by
  constructor
  · have hcond : conditionsFor { f with end_timestamp := e } ct = conditionsFor f ct := by
      unfold conditionsFor
      by_cases hs : strTruthy f.start_timestamp <;>
        by_cases he : strTruthy f.end_timestamp <;>
        by_cases he2 : strTruthy e <;> simp [hs, he, he2]
    unfold build_qdrant_filter
    simp only [hcond]
  · intro s hs hne
    have hemp : s.isEmpty = false := by
      cases hEq : s.isEmpty
      · rfl
      · exact absurd ((String.isEmpty_iff s).mp hEq) hne
    have htruthy : strTruthy f.start_timestamp = true := by
      rw [hs]
      simp [strTruthy, hemp]
    constructor
    · rw [mustOf_build]
      unfold conditionsFor
      simp [htruthy, hs, strTruthy, hemp]
    · intro gte lte hmem
      rw [mustOf_build] at hmem
      rcases mem_conditionsFor hmem with ⟨_, h⟩ | ⟨_, h⟩ | ⟨_, _, h⟩ | ⟨_, _, h⟩ |
        ⟨_, _, h⟩ <;> simp_all

/-- Witness for C10: `start_timestamp = "123"`, `end_timestamp` toggled. -/
theorem C10_end_timestamp_dead_witness :
    build_qdrant_filter
        (some { (⟨none, none, some "123", none, none, none, none, none⟩ : SearchFilters) with
            end_timestamp := some "999" }) "chat" =
      build_qdrant_filter
        (some ⟨none, none, some "123", none, none, none, none, none⟩) "chat" ∧
    Condition.matchValue "timestamp" "123" ∈
      mustOf (build_qdrant_filter
        (some ⟨none, none, some "123", none, none, none, none, none⟩) "chat") :=
  ⟨(C10_end_timestamp_dead ⟨none, none, some "123", none, none, none, none, none⟩
      (some "999") "chat").1,
   ((C10_end_timestamp_dead ⟨none, none, some "123", none, none, none, none, none⟩
      (some "999") "chat").2 "123" rfl (by decide)).1⟩

/-! ## C1: fusion -/

/-- Inserting an element whose score is `s` into a list leaves the other
equal-scored elements behind it: the `s`-scored slice gains `a` at its
front. -/
theorem filter_orderedInsert_eq_score (a : SearchResult) (s : ℚ) (ha : a.score = s) :
    ∀ l : List SearchResult,
      (List.orderedInsert scoreGe a l).filter (fun x => decide (x.score = s)) =
        a :: l.filter (fun x => decide (x.score = s))
  | [] => by simp [List.orderedInsert, ha]
  | b :: bs => by
    by_cases h : scoreGe a b
    · simp [List.orderedInsert, h, ha]
    · have hlt : a.score < b.score := lt_of_not_le h
      have hb : ¬ b.score = s := ne_of_gt (ha ▸ hlt)
      simp only [List.orderedInsert, if_neg h, List.filter_cons,
        decide_eq_true_eq, filter_orderedInsert_eq_score a s ha bs]
      simp [hb]

/-- Inserting an element whose score is not `s` leaves the `s`-scored slice
untouched. -/
theorem filter_orderedInsert_ne_score (a : SearchResult) (s : ℚ) (ha : ¬ a.score = s)
    (l : List SearchResult) :
    (List.orderedInsert scoreGe a l).filter (fun x => decide (x.score = s)) =
      l.filter (fun x => decide (x.score = s)) := by
  rw [List.orderedInsert_eq_take_drop, List.filter_append, List.filter_cons]
  simp only [decide_eq_true_eq, ha, if_false]
  rw [← List.filter_append, List.takeWhile_append_dropWhile]

/-- Stability of the fusion sort: for every score value, the sorted list
keeps the equal-scored results in their concatenation order. -/
theorem insertionSort_score_stable (s : ℚ) :
    ∀ l : List SearchResult,
      (List.insertionSort scoreGe l).filter (fun x => decide (x.score = s)) =
        l.filter (fun x => decide (x.score = s))
  | [] => rfl
  | a :: as => by
    simp only [List.insertionSort]
    by_cases ha : a.score = s
    · rw [filter_orderedInsert_eq_score a s ha, insertionSort_score_stable s as,
        List.filter_cons]
      simp [ha]
    · rw [filter_orderedInsert_ne_score a s ha, insertionSort_score_stable s as,
        List.filter_cons]
      simp [ha]

/-- **C1** — Fusion: the fused list is the concatenation of the documents,
transcripts and chat results in that order, stably sorted by score
descending and truncated to at most `2·top_k` elements: it is the
`2·top_k`-prefix of a permutation of the concatenation, sorted descending,
with equal scores kept in concatenation order; and fusing score lists
`[0.9, 0.5]` and `[0.8, 0.3]` with `top_k = 2` yields `[0.9, 0.8, 0.5, 0.3]`. -/
theorem C1_fusion (d t c : List SearchResult) (k : Nat) :
    fuse d t c k = (List.insertionSort scoreGe (d ++ t ++ c)).take (k * 2) ∧
    (fuse d t c k).length ≤ 2 * k ∧
    List.Perm (List.insertionSort scoreGe (d ++ t ++ c)) (d ++ t ++ c) ∧
    (fuse d t c k).Sorted scoreGe ∧
    (∀ s : ℚ,
      (List.insertionSort scoreGe (d ++ t ++ c)).filter (fun x => decide (x.score = s)) =
        (d ++ t ++ c).filter (fun x => decide (x.score = s))) ∧
    (fuse exDocResults exTranscriptResults [] 2).map SearchResult.score =
      [9/10, 4/5, 1/2, 3/10] := by
  refine ⟨rfl, ?_, List.perm_insertionSort _ _, ?_,
    fun s => insertionSort_score_stable s _, ?_⟩
  · have h1 : (fuse d t c k).length ≤ k * 2 := by
      simpa [fuse] using List.length_take_le (k * 2)
        (List.insertionSort scoreGe (d ++ t ++ c))
    omega
  · exact List.Pairwise.sublist (List.take_sublist _ _)
      (List.sorted_insertionSort scoreGe (d ++ t ++ c))
  · norm_num [fuse, exDocResults, exTranscriptResults, List.insertionSort,
      List.orderedInsert, scoreGe]

/-! ## C3: the chunk size bound -/

set_option maxRecDepth 10000 in
/-- Counterexample to **C3** as stated: in `overflowText` no line exceeds
384 words, yet the second chunk records 385 words, because the 340-word
overlap carried from the first chunk plus the 45-word new line is appended
unconditionally after a close. -/
theorem C3_counterexample :
    (∀ l ∈ pyLines overflowText, wordCount l ≤ 384) ∧
    ¬ (∀ c ∈ chunk_text overflowText 512 50, c.word_count ≤ 384) := by
  constructor
  · decide
  · decide

/-- The overlap loop's accumulated count stays below `overlap_words` plus
one line: it stops as soon as the bound is reached. -/
theorem overlapAux_snd_lt (ow L : Nat) :
    ∀ (rest acc : List String) (cnt : Nat),
      (∀ p ∈ rest, wordCount p ≤ L) → cnt < ow →
      (overlapAux ow acc cnt rest).2 < ow + L := by
  intro rest
  induction rest with
  | nil =>
    intro acc cnt _ hcnt
    exact lt_of_lt_of_le hcnt (Nat.le_add_right _ _)
  | cons p ps ih =>
    intro acc cnt hwc hcnt
    simp only [overlapAux]
    split
    · have hp := hwc p (List.mem_cons_self p ps)
      simp only
      omega
    · next hno =>
      exact ih _ _ (fun q hq => hwc q (List.mem_cons_of_mem p hq)) (by omega)

/-- Every line the overlap loop keeps comes from the accumulator or the
remaining (reversed) buffer. -/
theorem overlapAux_fst_mem (ow : Nat) :
    ∀ (rest acc : List String) (cnt : Nat) (l : String),
      l ∈ (overlapAux ow acc cnt rest).1 → l ∈ acc ∨ l ∈ rest := by
  intro rest
  induction rest with
  | nil =>
    intro acc cnt l hl
    exact Or.inl hl
  | cons p ps ih =>
    intro acc cnt l hl
    simp only [overlapAux] at hl
    split at hl
    · simp only [List.mem_cons] at hl
      rcases hl with rfl | hl
      · exact Or.inr (List.mem_cons_self _ _)
      · exact Or.inl hl
    · rcases ih _ _ l hl with h | h
      · simp only [List.mem_cons] at h
        rcases h with rfl | h
        · exact Or.inr (List.mem_cons_self _ _)
        · exact Or.inl h
      · exact Or.inr (List.mem_cons_of_mem p h)

/-- Preservation of the size invariant by one loop iteration, for the fixed
parameters `max_words = 384`, `overlap_words = 37` of the claim. -/
theorem processLine_size_inv (L : Nat) (st : ChunkState) (line : String)
    (hline : wordCount line ≤ L)
    (h1 : ∀ ch ∈ st.chunks, ch.word_count ≤ max 384 (36 + 2 * L))
    (h2 : st.count ≤ max 384 (36 + 2 * L))
    (h3 : ∀ l ∈ st.current, wordCount l ≤ L)
    (h4 : st.current = [] → st.count = 0) :
    (∀ ch ∈ (processLine 384 37 st line).chunks, ch.word_count ≤ max 384 (36 + 2 * L)) ∧
    (processLine 384 37 st line).count ≤ max 384 (36 + 2 * L) ∧
    (∀ l ∈ (processLine 384 37 st line).current, wordCount l ≤ L) ∧
    ((processLine 384 37 st line).current = [] →
      (processLine 384 37 st line).count = 0) := by
  unfold processLine
  by_cases hb : pyIsBlank line
  · simp only [if_pos hb]
    exact ⟨h1, h2, h3, h4⟩
  · simp only [if_neg hb]
    by_cases hclose : 384 < st.count + wordCount line ∧ st.current ≠ []
    · have hcond : (decide (384 < st.count + wordCount line) && !st.current.isEmpty) = true := by
        simp [hclose.1, List.isEmpty_iff, hclose.2]
      simp only [hcond, if_true]
      have hov2 : (overlapAux 37 [] 0 st.current.reverse).2 < 37 + L := by
        refine overlapAux_snd_lt 37 L st.current.reverse [] 0 ?_ (by omega)
        intro p hp
        exact h3 p (List.mem_reverse.mp hp)
      have hov1 : ∀ l ∈ (overlapAux 37 [] 0 st.current.reverse).1, wordCount l ≤ L := by
        intro l hl
        rcases overlapAux_fst_mem 37 st.current.reverse [] 0 l hl with h | h
        · cases h
        · exact h3 l (List.mem_reverse.mp h)
      refine ⟨?_, by omega, ?_, ?_⟩
      · intro ch hch
        simp only [List.mem_append, List.mem_singleton] at hch
        rcases hch with hch | hch
        · exact h1 ch hch
        · subst hch; exact h2
      · intro l hl
        simp only [List.mem_append, List.mem_singleton] at hl
        rcases hl with hl | hl
        · exact hov1 l hl
        · subst hl; exact hline
      · intro hemp
        exact absurd hemp (by simp)
    · have hcond : (decide (384 < st.count + wordCount line) && !st.current.isEmpty) = false := by
        rcases Decidable.not_and_iff_or_not.mp hclose with h | h
        · simp [h]
        · have : st.current = [] := Decidable.not_not.mp h
          simp [this]
      simp only [hcond, Bool.false_eq_true, if_false]
      rcases Decidable.not_and_iff_or_not.mp hclose with hno | hne
      · refine ⟨h1, by omega, ?_, by simp⟩
        intro l hl
        simp only [List.mem_append, List.mem_singleton] at hl
        rcases hl with hl | hl
        · exact h3 l hl
        · subst hl; exact hline
      · have hcur : st.current = [] := Decidable.not_not.mp hne
        have hz : st.count = 0 := h4 hcur
        refine ⟨h1, ?_, ?_, by simp⟩
        · have : wordCount line ≤ L := hline
          omega
        · intro l hl
          simp only [hcur, List.nil_append, List.mem_singleton] at hl
          subst hl; exact hline

/-- **C3 (amended)** — Size bound with the overlap carry accounted for: for
`max_tokens = 512`, `overlap_tokens = 50`, if no input line exceeds `L`
words then no chunk's recorded `word_count` exceeds
`max 384 (36 + 2·L)`; the bound `384` alone can be exceeded (without any
single line exceeding it) only by a chunk that begins with carried overlap,
as `overflowText` shows. -/
theorem C3_amended (text : String) (L : Nat)
    (hL : ∀ l ∈ pyLines text, wordCount l ≤ L) :
    ∀ ch ∈ chunk_text text 512 50, ch.word_count ≤ max 384 (36 + 2 * L) := by
  intro ch hch
  unfold chunk_text at hch
  norm_num at hch
  have hfold := foldl_preserves (processLine 384 37)
    (fun st => (∀ d ∈ st.chunks, d.word_count ≤ max 384 (36 + 2 * L)) ∧
      st.count ≤ max 384 (36 + 2 * L) ∧
      (∀ l ∈ st.current, wordCount l ≤ L) ∧ (st.current = [] → st.count = 0))
    (fun l => wordCount l ≤ L)
    (fun st a ha hst => processLine_size_inv L st a ha hst.1 hst.2.1 hst.2.2.1 hst.2.2.2)
    (pyLines text) hL ⟨[], [], 0⟩
    ⟨fun d hd => absurd hd (List.not_mem_nil d), by simp, fun l hl => absurd hl (List.not_mem_nil l), fun _ => rfl⟩
  simp only [finishChunks] at hch
  split at hch
  · exact hfold.1 ch hch
  · simp only [List.mem_append, List.mem_singleton] at hch
    rcases hch with hch | hch
    · exact hfold.1 ch hch
    · subst hch
      exact hfold.2.1

/-- Witness for C3 (amended) on a two-word input with `L = 2`. -/
theorem C3_amended_witness :
    (Chunk.mk "a b" 2 2).word_count ≤ max 384 (36 + 2 * 2) :=
  C3_amended "a b" 2 (by decide) (Chunk.mk "a b" 2 2) (by decide)

/-! ## C4: reconstruction of the input lines from the chunks -/

/-- Lines produced by the newline splitter contain no newline characters. -/
theorem splitLinesAux_no_newline :
    ∀ (cs acc : List Char), (∀ ch ∈ acc, ch ≠ '\n') →
      ∀ l ∈ splitLinesAux cs acc, ∀ ch ∈ l.data, ch ≠ '\n' := by
  intro cs
  induction cs with
  | nil =>
    intro acc hacc l hl ch hch
    simp only [splitLinesAux, List.mem_singleton] at hl
    subst hl
    exact hacc ch (List.mem_reverse.mp hch)
  | cons c cs ih =>
    intro acc hacc l hl ch hch
    simp only [splitLinesAux] at hl
    split at hl
    · simp only [List.mem_cons] at hl
      rcases hl with rfl | hl
      · exact hacc ch (List.mem_reverse.mp hch)
      · exact ih [] (fun x hx => absurd hx (List.not_mem_nil x)) l hl ch hch
    · next hc =>
      refine ih (c :: acc) ?_ l hl ch hch
      intro x hx
      simp only [List.mem_cons] at hx
      rcases hx with rfl | hx
      · exact hc
      · exact hacc x hx

/-- Lines of `pyLines` contain no newline characters. -/
theorem pyLines_no_newline (s : String) :
    ∀ l ∈ pyLines s, ∀ ch ∈ l.data, ch ≠ '\n' :=
  splitLinesAux_no_newline s.data [] (fun x hx => absurd hx (List.not_mem_nil x))

/-- Splitting a newline-free character list yields the single line. -/
theorem splitLinesAux_no_nl :
    ∀ (cs acc : List Char), (∀ ch ∈ cs, ch ≠ '\n') →
      splitLinesAux cs acc = [String.mk (acc.reverse ++ cs)] := by
  intro cs
  induction cs with
  | nil => intro acc _; simp [splitLinesAux]
  | cons c cs ih =>
    intro acc hcs
    have hc : c ≠ '\n' := hcs c (List.mem_cons_self c cs)
    simp only [splitLinesAux, if_neg hc]
    rw [ih (c :: acc) (fun x hx => hcs x (List.mem_cons_of_mem c hx))]
    simp

/-- Splitting at the first newline of a newline-free prefix. -/
theorem splitLinesAux_newline_split (rest : List Char) :
    ∀ (cs acc : List Char), (∀ ch ∈ cs, ch ≠ '\n') →
      splitLinesAux (cs ++ '\n' :: rest) acc =
        String.mk (acc.reverse ++ cs) :: splitLinesAux rest [] := by
  intro cs
  induction cs with
  | nil => intro acc _; simp [splitLinesAux]
  | cons c cs ih =>
    intro acc hcs
    have hc : c ≠ '\n' := hcs c (List.mem_cons_self c cs)
    simp only [List.cons_append, splitLinesAux, if_neg hc, List.append_eq]
    rw [ih (c :: acc) (fun x hx => hcs x (List.mem_cons_of_mem c hx))]
    simp

/-- Splitting the `"\n"`-join of newline-free, non-empty line lists gives
back exactly the lines: chunk texts round-trip. -/
theorem pyLines_joinLines :
    ∀ (parts : List String), parts ≠ [] →
      (∀ l ∈ parts, ∀ ch ∈ l.data, ch ≠ '\n') →
      pyLines (joinLines parts) = parts := by
  intro parts
  induction parts with
  | nil => intro h _; exact absurd rfl h
  | cons l ls ih =>
    intro _ hnl
    cases ls with
    | nil =>
      show splitLinesAux l.data [] = [l]
      rw [splitLinesAux_no_nl l.data [] (hnl l (List.mem_cons_self l []))]
      cases l
      simp
    | cons l2 ls2 =>
      have hjoin : (joinLines (l :: l2 :: ls2)).data =
          l.data ++ '\n' :: (joinLines (l2 :: ls2)).data := by
        show (l ++ "\n" ++ joinWith "\n" (l2 :: ls2)).data = _
        rw [String.data_append, String.data_append]
        show l.data ++ ['\n'] ++ (joinWith "\n" (l2 :: ls2)).data = _
        simp [joinLines]
      show splitLinesAux (joinLines (l :: l2 :: ls2)).data [] = l :: l2 :: ls2
      rw [hjoin, splitLinesAux_newline_split _ l.data []
        (hnl l (List.mem_cons_self l _))]
      have htail := ih (by simp)
        (fun x hx => hnl x (List.mem_cons_of_mem l hx))
      rw [show splitLinesAux (joinLines (l2 :: ls2)).data [] =
          pyLines (joinLines (l2 :: ls2)) from rfl, htail]
      cases l
      simp

/-- The lines recorded in a closed chunk are exactly the buffer it closed. -/
theorem chunkLines_mkChunk (cur : List String) (cnt : Nat) (hne : cur ≠ [])
    (hnl : ∀ l ∈ cur, ∀ ch ∈ l.data, ch ≠ '\n') :
    chunkLines (mkChunk cur cnt) = cur :=
  pyLines_joinLines cur hne hnl

/-- `getLast?`-with-default steps over a cons. -/
theorem getLastD_cons (c : Chunk) (cs : List Chunk) (d : Chunk) :
    ((c :: cs).getLast?).getD d = (cs.getLast?).getD c := by
  cases cs with
  | nil => rfl
  | cons x xs =>
    rw [List.getLast?_cons_cons]
    cases h : (x :: xs).getLast? with
    | none => exact absurd (List.getLast?_eq_none_iff.mp h) (by simp)
    | some y => rfl

/-- Appending one chunk to the reconstruction drops its overlap relative to
the previous last chunk. -/
theorem reconstructFrom_concat (ow : Nat) (D : Chunk) :
    ∀ (l : List Chunk) (p : Chunk),
      reconstructFrom ow p (l ++ [D]) =
        reconstructFrom ow p l ++
          (chunkLines D).drop (overlapLen ow ((l.getLast?).getD p)) := by
  intro l
  induction l with
  | nil => intro p; simp [reconstructFrom]
  | cons c cs ih =>
    intro p
    simp only [List.cons_append, List.append_eq, reconstructFrom, ih c, getLastD_cons,
      List.append_assoc]

/-- `reconstruct` over a non-empty chunk list extended by one chunk. -/
theorem reconstruct_concat (ow : Nat) (l : List Chunk) (D : Chunk) (h : l ≠ []) :
    reconstruct ow (l ++ [D]) =
      reconstruct ow l ++ (chunkLines D).drop (overlapLen ow ((l.getLast?).getD D)) := by
  cases l with
  | nil => exact absurd rfl h
  | cons c0 cs =>
    simp only [List.cons_append, reconstruct, reconstructFrom_concat,
      getLastD_cons, List.append_assoc]

/-- One non-blank loop iteration extends the reconstructed line sequence by
exactly the consumed line, and preserves the buffer well-formedness
invariants. -/
theorem processLine_reconstruct_inv (mw ow : Nat) (st : ChunkState) (line : String)
    (done : List String)
    (hnl : ∀ ch ∈ line.data, ch ≠ '\n')
    (hb : pyIsBlank line = false)
    (hA : reconstruct ow (finishChunks st) = done)
    (hB : ∀ l ∈ st.current, ∀ ch ∈ l.data, ch ≠ '\n')
    (hC : st.current = [] → st.chunks = [])
    (hD : ∀ C, st.chunks.getLast? = some C → overlapLen ow C ≤ st.current.length) :
    reconstruct ow (finishChunks (processLine mw ow st line)) = done ++ [line] ∧
    (∀ l ∈ (processLine mw ow st line).current, ∀ ch ∈ l.data, ch ≠ '\n') ∧
    ((processLine mw ow st line).current = [] →
      (processLine mw ow st line).chunks = []) ∧
    (∀ C, (processLine mw ow st line).chunks.getLast? = some C →
      overlapLen ow C ≤ (processLine mw ow st line).current.length) := by
  have hbneg : ¬ (pyIsBlank line = true) := by simp [hb]
  by_cases hclose : mw < st.count + wordCount line ∧ st.current ≠ []
  · -- close the current chunk, reseed with overlap, append the line
    have hcur_ne : st.current ≠ [] := hclose.2
    have hcond : (decide (mw < st.count + wordCount line) && !st.current.isEmpty) = true := by
      simp [hclose.1, List.isEmpty_iff, hcur_ne]
    have hstep : processLine mw ow st line =
        ⟨st.chunks ++ [mkChunk st.current st.count],
         (overlapAux ow [] 0 st.current.reverse).1 ++ [line],
         (overlapAux ow [] 0 st.current.reverse).2 + wordCount line⟩ := by
      unfold processLine
      rw [if_neg hbneg, if_pos hcond]
    have hCL : chunkLines (mkChunk st.current st.count) = st.current :=
      chunkLines_mkChunk st.current st.count hcur_ne hB
    have hovnl : ∀ l ∈ (overlapAux ow [] 0 st.current.reverse).1,
        ∀ ch ∈ l.data, ch ≠ '\n' := by
      intro l hl
      rcases overlapAux_fst_mem ow st.current.reverse [] 0 l hl with h | h
      · cases h
      · exact hB l (List.mem_reverse.mp h)
    have hovlen : overlapLen ow (mkChunk st.current st.count) =
        (overlapAux ow [] 0 st.current.reverse).1.length := by
      unfold overlapLen
      rw [hCL]
    have hfin : finishChunks st = st.chunks ++ [mkChunk st.current st.count] := by
      unfold finishChunks
      rw [if_neg (by simp [List.isEmpty_iff, hcur_ne])]
    have hVnl : ∀ l ∈ (overlapAux ow [] 0 st.current.reverse).1 ++ [line],
        ∀ ch ∈ l.data, ch ≠ '\n' := by
      intro l hl
      simp only [List.mem_append, List.mem_singleton] at hl
      rcases hl with hl | hl
      · exact hovnl l hl
      · subst hl; exact hnl
    have hVCL : chunkLines (mkChunk ((overlapAux ow [] 0 st.current.reverse).1 ++ [line])
        ((overlapAux ow [] 0 st.current.reverse).2 + wordCount line)) =
        (overlapAux ow [] 0 st.current.reverse).1 ++ [line] :=
      chunkLines_mkChunk _ _ (by simp) hVnl
    rw [hstep]
    refine ⟨?_, hVnl, ?_, ?_⟩
    · have hfin2 : finishChunks
          (⟨st.chunks ++ [mkChunk st.current st.count],
            (overlapAux ow [] 0 st.current.reverse).1 ++ [line],
            (overlapAux ow [] 0 st.current.reverse).2 + wordCount line⟩ : ChunkState) =
          (st.chunks ++ [mkChunk st.current st.count]) ++
            [mkChunk ((overlapAux ow [] 0 st.current.reverse).1 ++ [line])
              ((overlapAux ow [] 0 st.current.reverse).2 + wordCount line)] := by
        unfold finishChunks
        rw [if_neg (by simp)]
      rw [hfin2, reconstruct_concat ow _ _ (by simp), List.getLast?_concat]
      simp only [Option.getD_some]
      rw [hVCL, hovlen, List.drop_left, ← hfin, hA]
    · intro h
      exact absurd h (by simp)
    · intro C hCeq
      rw [List.getLast?_concat] at hCeq
      cases hCeq
      rw [hovlen]
      simp
  · -- plain append (either it fits, or the buffer is empty)
    have hcond : (decide (mw < st.count + wordCount line) && !st.current.isEmpty) = false := by
      rcases Decidable.not_and_iff_or_not.mp hclose with h | h
      · simp [h]
      · have : st.current = [] := Decidable.not_not.mp h
        simp [this]
    have hstep : processLine mw ow st line =
        ⟨st.chunks, st.current ++ [line], st.count + wordCount line⟩ := by
      unfold processLine
      rw [if_neg hbneg, if_neg (by simp [hcond])]
    have hBnew : ∀ l ∈ st.current ++ [line], ∀ ch ∈ l.data, ch ≠ '\n' := by
      intro l hl
      simp only [List.mem_append, List.mem_singleton] at hl
      rcases hl with hl | hl
      · exact hB l hl
      · subst hl; exact hnl
    rw [hstep]
    refine ⟨?_, hBnew, fun h => absurd h (by simp), ?_⟩
    · by_cases hcur : st.current = []
      · -- empty buffer: first line of the whole input
        have hchunks : st.chunks = [] := hC hcur
        have hdone : done = [] := by
          rw [← hA]
          unfold finishChunks
          rw [if_pos (by simp [hcur]), hchunks]
          rfl
        have hfin2 : finishChunks (⟨st.chunks, st.current ++ [line],
            st.count + wordCount line⟩ : ChunkState) =
            [mkChunk (st.current ++ [line]) (st.count + wordCount line)] := by
          unfold finishChunks
          rw [if_neg (by simp), hchunks]
          rfl
        rw [hfin2, hdone]
        show chunkLines (mkChunk (st.current ++ [line]) (st.count + wordCount line)) ++
            reconstructFrom ow _ [] = [] ++ [line]
        rw [chunkLines_mkChunk _ _ (by simp) hBnew, hcur]
        rfl
      · have hfinold : finishChunks st = st.chunks ++ [mkChunk st.current st.count] := by
          unfold finishChunks
          rw [if_neg (by simp [List.isEmpty_iff, hcur])]
        have hfin2 : finishChunks (⟨st.chunks, st.current ++ [line],
            st.count + wordCount line⟩ : ChunkState) =
            st.chunks ++ [mkChunk (st.current ++ [line]) (st.count + wordCount line)] := by
          unfold finishChunks
          rw [if_neg (by simp)]
        rw [hfin2]
        cases hch : st.chunks with
        | nil =>
          have hdone : done = st.current := by
            rw [← hA, hfinold, hch]
            show chunkLines (mkChunk st.current st.count) ++ reconstructFrom ow _ [] = _
            rw [chunkLines_mkChunk _ _ hcur hB]
            simp [reconstructFrom]
          rw [hdone]
          show chunkLines (mkChunk (st.current ++ [line]) (st.count + wordCount line)) ++
              reconstructFrom ow _ [] = st.current ++ [line]
          rw [chunkLines_mkChunk _ _ (by simp) hBnew]
          simp [reconstructFrom]
        | cons q qs =>
          rw [← hch]
          cases hlast : st.chunks.getLast? with
          | none =>
            rw [List.getLast?_eq_none_iff.mp hlast] at hch
            cases hch
          | some C0 =>
            have hk : overlapLen ow C0 ≤ st.current.length := hD C0 hlast
            have hchne : st.chunks ≠ [] := by rw [hch]; simp
            rw [reconstruct_concat ow st.chunks _ hchne, hlast]
            simp only [Option.getD_some]
            rw [chunkLines_mkChunk _ _ (by simp) hBnew,
              List.drop_append_of_le_length hk]
            rw [← hA, hfinold, reconstruct_concat ow st.chunks _ hchne, hlast]
            simp only [Option.getD_some]
            rw [chunkLines_mkChunk _ _ hcur hB, List.append_assoc]
    · intro C hCeq
      have hk := hD C hCeq
      simp only [List.length_append, List.length_singleton]
      omega

/-- Folding the loop over well-formed lines appends exactly the non-blank
ones to the reconstruction. -/
theorem chunkLoop_reconstruct (mw ow : Nat) :
    ∀ (lines : List String) (st : ChunkState) (done : List String),
      (∀ l ∈ lines, ∀ ch ∈ l.data, ch ≠ '\n') →
      reconstruct ow (finishChunks st) = done →
      (∀ l ∈ st.current, ∀ ch ∈ l.data, ch ≠ '\n') →
      (st.current = [] → st.chunks = []) →
      (∀ C, st.chunks.getLast? = some C → overlapLen ow C ≤ st.current.length) →
      reconstruct ow (finishChunks (lines.foldl (processLine mw ow) st)) =
        done ++ lines.filter (fun l => !pyIsBlank l) := by
  intro lines
  induction lines with
  | nil =>
    intro st done _ hA _ _ _
    simpa using hA
  | cons l ls ih =>
    intro st done hnl hA hB hC hD
    simp only [List.foldl_cons, List.filter_cons]
    by_cases hb : pyIsBlank l
    · have hstep : processLine mw ow st l = st := by
        unfold processLine
        rw [if_pos hb]
      rw [hstep, ih st done (fun x hx => hnl x (List.mem_cons_of_mem l hx)) hA hB hC hD]
      simp [hb]
    · have hb2 : pyIsBlank l = false := by simp [hb]
      have hstep := processLine_reconstruct_inv mw ow st l done
        (hnl l (List.mem_cons_self l ls)) hb2 hA hB hC hD
      rw [ih (processLine mw ow st l) (done ++ [l])
        (fun x hx => hnl x (List.mem_cons_of_mem l hx))
        hstep.1 hstep.2.1 hstep.2.2.1 hstep.2.2.2]
      simp [hb2]

/-- **C4** — Chunker reconstruction: for every input and parameters, erasing
from each chunk (after the first) the overlap prefix carried from its
predecessor and concatenating the remaining lines reproduces exactly the
non-blank lines of the input, in order; and empty input yields no chunks. -/
theorem C4_reconstruction (text : String) (max_tokens overlap_tokens : Nat) (ps : Bool) :
    reconstruct (3 * overlap_tokens / 4) (chunk_text text max_tokens overlap_tokens ps) =
      (pyLines text).filter (fun l => !pyIsBlank l) ∧
    chunk_text "" max_tokens overlap_tokens ps = [] := by
  constructor
  · unfold chunk_text
    have h := chunkLoop_reconstruct (3 * max_tokens / 4) (3 * overlap_tokens / 4)
      (pyLines text) ⟨[], [], 0⟩ [] (pyLines_no_newline text) rfl
      (fun x hx => absurd hx (List.not_mem_nil x)) (fun _ => rfl)
      (fun C hC => Option.noConfusion hC)
    simpa using h
  · rfl

end RagService
